import Mathlib

/-!
Verification development for the Balance & Settlement Engine of the
Group-Travel-Planner repository (the ExpenseSplitter component and the
AddExpenseModal in the source tree): the data model, the ledger
mutations, currency conversion, the balance computation, and the two
settlement policies.

Modelling conventions:
- JavaScript numbers (amounts, rates) are modelled as rationals.
- The NaN sentinel that `convertToBase` returns on a missing rate, which
  the caller checks with `isNaN` and skips, is modelled as `Option`.
- The `balanceMap` (a JS `Map` that is always read with `get(k) ?? 0`)
  is modelled as a total function `Nat -> Rat` that starts at the
  constant-zero function, which has identical read semantics.
- `Array.prototype.sort` with comparator `(a, b) => b.amount - a.amount`
  (a stable descending sort on `amount`) is modelled by
  `List.insertionSort` with relation `b.amount <= a.amount`.
- The `while` loop of the simplified settlement is modelled as a step
  function `simpStep` iterated by `simpRun` with an explicit fuel bound;
  `simpRun` returns `none` when the fuel runs out before the loop guard
  fails.  The loop mutates only the entries at the current cursor
  positions and never revisits passed entries, so the cursor-and-array
  state is represented by the suffixes of the two lists that start at
  the cursors.
-/

structure Participant where
  id : Nat
  name : String
deriving DecidableEq, Repr

structure Expense where
  id : Nat
  description : String
  amount : ℚ
  currency : String
  paidById : Nat
  sharedByIds : List Nat
deriving DecidableEq, Repr

structure Balance where
  participant : Participant
  amount : ℚ
deriving DecidableEq, Repr

structure Txn where
  fromName : String
  toName : String
  amount : ℚ
deriving DecidableEq, Repr

/-- A present rate table: the `conversionRates` record, as an association
list from currency code to rate.  The absent/error state is modelled by
`Option RateTable` plus the `ratesError` flag at the call sites. -/
abbrev RateTable := List (String × ℚ)

/-- The 0.01 tolerance used throughout the component: the exact
rational value of the IEEE-754 double denoted by the literal `0.01` in
the source (1/100 itself is not representable in binary floating point;
every comparison the program performs against its `0.01` literals uses
this value, namely 5764607523034235 * 2^-59). -/
def eps : ℚ := 5764607523034235 / 576460752303423488

/-- `conversionRates[fromCurrency]` with the `typeof rate !== 'number'`
check: property lookup in the rates record. -/
def lookupRate (rt : RateTable) (c : String) : Option ℚ :=
  (rt.find? (fun p => p.1 == c)).map (·.2)

/-- `convertToBase` from the balances computation: identity when the
currencies match, otherwise a rate lookup; `none` models the NaN
sentinel returned on a missing rate. -/
def convertToBase (conversionRates : RateTable) (baseCurrency : String)
    (amount : ℚ) (fromCurrency : String) : Option ℚ :=
  if fromCurrency = baseCurrency then some amount
  else
    match lookupRate conversionRates fromCurrency with
    | none => none
    | some rate => some (amount * rate)

/-- The `expense.sharedByIds.forEach` loop: debit every sharer by
`share`, sequentially. -/
def applySharers (share : ℚ) (ids : List Nat) (m : Nat → ℚ) : Nat → ℚ :=
  ids.foldl (fun acc pid => Function.update acc pid (acc pid - share)) m

/-- The body of the `for (const expense of expenses)` loop: skip the
expense when conversion fails, otherwise credit the payer and debit
every sharer by the equal share. -/
def applyExpense (rt : RateTable) (base : String) (m : Nat → ℚ) (e : Expense) : Nat → ℚ :=
  match convertToBase rt base e.amount e.currency with
  | none => m
  | some converted =>
      applySharers (converted / (e.sharedByIds.length : ℚ)) e.sharedByIds
        (Function.update m e.paidById (m e.paidById + converted))

/-- The final `balanceMap` after folding all expenses. -/
def balanceMapOf (rt : RateTable) (base : String) (es : List Expense) : Nat → ℚ :=
  es.foldl (applyExpense rt base) (fun _ => 0)

/-- The `balances` computation: the guard
`participants.length === 0 || !conversionRates || ratesError` returns
`[]`, otherwise one Balance per participant read from the map, sorted
descending by amount. -/
def balancesCalc (participants : List Participant) (expenses : List Expense)
    (baseCurrency : String) (conversionRates : Option RateTable) (ratesError : Bool) :
    List Balance :=
  match conversionRates with
  | none => []
  | some rt =>
      if participants.isEmpty || ratesError then []
      else
        List.insertionSort (fun a b => b.amount ≤ a.amount)
          (participants.map
            (fun p => { participant := p, amount := balanceMapOf rt baseCurrency expenses p.id }))

structure LedgerState where
  participants : List Participant
  expenses : List Expense
deriving DecidableEq, Repr

/-- `removeParticipant(id)`: first strip `id` from every expense's
`sharedByIds`, then keep only expenses whose payer is not `id` and whose
stripped sharer list is non-empty; finally drop the participant. -/
def removeParticipant (id : Nat) (st : LedgerState) : LedgerState :=
  { participants := st.participants.filter (fun p => p.id != id),
    expenses :=
      (st.expenses.map
        (fun ex => { ex with sharedByIds := ex.sharedByIds.filter (fun pId => pId != id) })).filter
        (fun ex => ex.paidById != id && ex.sharedByIds.length != 0) }

/-- The fields of an expense submitted by the modal, before an id is
assigned. -/
structure ExpenseInput where
  description : String
  amount : ℚ
  currency : String
  paidById : Nat
  sharedByIds : List Nat
deriving DecidableEq, Repr

/-- `addExpense`: append the expense with id `Date.now()` (passed in as
`now`); the function itself performs no validation. -/
def addExpense (expenses : List Expense) (input : ExpenseInput) (now : Nat) : List Expense :=
  expenses ++
    [{ id := now, description := input.description, amount := input.amount,
       currency := input.currency, paidById := input.paidById,
       sharedByIds := input.sharedByIds }]

/-- JS truthiness of the modal's `paidById` state
(`number | undefined`): `undefined` and `0` are falsy. -/
def truthyId : Option Nat → Bool
  | none => false
  | some n => n != 0

/-- `AddExpenseModal.handleSubmit` composed with `addExpense`: the guard
`description && numericAmount > 0 && paidById && sharedByIds.length > 0`
decides whether the expense is appended (`some` of the new list) or
nothing happens (`none`). -/
def handleSubmit (expenses : List Expense) (description : String) (amount : ℚ)
    (currency : String) (paidById : Option Nat) (sharedByIds : List Nat) (now : Nat) :
    Option (List Expense) :=
  if description ≠ "" ∧ 0 < amount ∧ truthyId paidById = true ∧ sharedByIds ≠ [] then
    some (addExpense expenses
      { description := description, amount := amount, currency := currency,
        paidById := paidById.getD 0, sharedByIds := sharedByIds } now)
  else none

/-- `balances.filter((b) => b.amount > 0.01)`. -/
def creditorsOf (bs : List Balance) : List Balance :=
  bs.filter (fun b => decide (eps < b.amount))

/-- `balances.filter((b) => b.amount < -0.01).map(b => ({...b, amount: Math.abs(b.amount)}))`. -/
def debtorsOf (bs : List Balance) : List Balance :=
  (bs.filter (fun b => decide (b.amount < -eps))).map
    (fun b => { b with amount := |b.amount| })

/-- State of the simplified-settlement loop: the unprocessed suffixes of
the debtor and creditor arrays (heads are the cursor positions) and the
transactions emitted so far. -/
structure SimpState where
  debtors : List Balance
  creditors : List Balance
  txns : List Txn
deriving DecidableEq, Repr

/-- Negation of the loop guard
`debtorIndex < debtors.length && creditorIndex < creditors.length`. -/
def simpDone (s : SimpState) : Bool :=
  s.debtors.isEmpty || s.creditors.isEmpty

/-- One iteration of the simplified-settlement `while` loop. -/
def simpStep (s : SimpState) : SimpState :=
  match s.debtors, s.creditors with
  | debtor :: ds, creditor :: cs =>
      let amountToSettle := min debtor.amount creditor.amount
      let emit := decide (eps < amountToSettle)
      let debtor' : Balance :=
        if emit then { debtor with amount := debtor.amount - amountToSettle } else debtor
      let creditor' : Balance :=
        if emit then { creditor with amount := creditor.amount - amountToSettle } else creditor
      { debtors := if debtor'.amount < eps then ds else debtor' :: ds,
        creditors := if creditor'.amount < eps then cs else creditor' :: cs,
        txns :=
          if emit then
            s.txns ++
              [{ fromName := debtor.participant.name,
                 toName := creditor.participant.name,
                 amount := amountToSettle }]
          else s.txns }
  | _, _ => s

/-- Iterate `simpStep` until the loop guard fails, or give up (`none`)
when `fuel` iterations were not enough.  The source loop has no fuel
bound; a `none` for every fuel means the loop does not terminate. -/
def simpRun (fuel : Nat) (s : SimpState) : Option (List Txn) :=
  if simpDone s then some s.txns
  else
    match fuel with
    | 0 => none
    | fuel' + 1 => simpRun fuel' (simpStep s)

/-- `simplifiedSettleTransactions`, with an explicit iteration budget. -/
def simplifiedSettleTransactions (fuel : Nat) (bs : List Balance) : Option (List Txn) :=
  simpRun fuel { debtors := debtorsOf bs, creditors := creditorsOf bs, txns := [] }

/-- `detailedSettleTransactions`: every debtor pays every creditor in
proportion to the creditor's share of total credit; payments of at most
`eps` are skipped. -/
def detailedSettleTransactions (bs : List Balance) : List Txn :=
  let creditors := creditorsOf bs
  let debtors := debtorsOf bs
  if creditors.isEmpty || debtors.isEmpty then []
  else
    let totalCredit := (creditors.map (·.amount)).sum
    if totalCredit < eps then []
    else
      debtors.flatMap (fun debtor =>
        creditors.filterMap (fun creditor =>
          let payment := debtor.amount * (creditor.amount / totalCredit)
          if eps < payment then
            some { fromName := debtor.participant.name,
                   toName := creditor.participant.name, amount := payment }
          else none))

/-- Net contribution of one expense to the balance-map entry of key `k`
(zero when the expense's conversion fails). -/
def expenseDelta (rt : RateTable) (base : String) (e : Expense) (k : Nat) : ℚ :=
  match convertToBase rt base e.amount e.currency with
  | none => 0
  | some converted =>
      (if k = e.paidById then converted else 0) -
        converted / (e.sharedByIds.length : ℚ) * (e.sharedByIds.count k : ℚ)

/-- Total amount of the transactions paid out by participant `name`. -/
def outSum (txns : List Txn) (name : String) : ℚ :=
  ((txns.filter (fun t => t.fromName == name)).map (·.amount)).sum

/-- Total amount of the transactions received by participant `name`. -/
def inSum (txns : List Txn) (name : String) : ℚ :=
  ((txns.filter (fun t => t.toName == name)).map (·.amount)).sum

/-- Total of the amounts carried by entries of `l` for participant
`name`. -/
def nameTotal (l : List Balance) (name : String) : ℚ :=
  ((l.filter (fun b => b.participant.name == name)).map (·.amount)).sum

/-- The descending-amount comparator is total. -/
instance instIsTotalBalanceDesc : IsTotal Balance (fun a b => b.amount ≤ a.amount) :=
  ⟨fun a b => le_total b.amount a.amount⟩

/-- The descending-amount comparator is transitive. -/
instance instIsTransBalanceDesc : IsTrans Balance (fun a b => b.amount ≤ a.amount) :=
  ⟨fun _ _ _ hab hbc => le_trans hbc hab⟩

/-! ### Concrete sample data used by witnesses and counterexamples -/

def pA : Participant := { id := 1, name := "A" }

def pB : Participant := { id := 2, name := "B" }

def pC : Participant := { id := 3, name := "C" }

/-- One USD rate entry: the base currency maps to 1. -/
def rtUSD : RateTable := [("USD", 1)]

/-- The spec's example expense: A pays 90, shared by A, B, C. -/
def exSpec : Expense :=
  { id := 10, description := "dinner", amount := 90, currency := "USD", paidById := 1,
    sharedByIds := [1, 2, 3] }

/-- An expense involving only participant A. -/
def exOnlyA : Expense :=
  { id := 11, description := "solo", amount := 30, currency := "USD", paidById := 1,
    sharedByIds := [1] }

/-- An expense in a currency with no rate entry in `rtUSD`. -/
def exEUR : Expense :=
  { id := 12, description := "museum", amount := 50, currency := "EUR", paidById := 1,
    sharedByIds := [1] }

/-- Balance list on which both settlement policies under-deliver to the
creditor by more than `eps`. -/
def balShort : List Balance :=
  [{ participant := pA, amount := 100 }, { participant := pB, amount := -40 }]

/-- Balance list on which the simplified settlement loop never
terminates.  All three amounts are exactly representable IEEE-754
doubles (A's balance is `eps + 2^-58`, C's is minus the sum of A's and
`eps`), and every operation the loop performs on them is exact in
double arithmetic (each intermediate result is itself representable),
so the double-precision execution of the source coincides step for
step with this rational model: the first iteration settles A's full
balance and leaves the debtor's remaining amount at exactly `eps`, the
value of the double literal `0.01` the loop compares against, after
which no iteration emits or advances a cursor. -/
def balStuck : List Balance :=
  [{ participant := pA, amount := 5764607523034237 / 576460752303423488 },
   { participant := pB, amount := 1 / 4 },
   { participant := pC, amount := -(11529215046068472 / 576460752303423488) }]

/-- The non-final fixpoint state that `balStuck` reaches after one loop
iteration. -/
def stuckState : SimpState :=
  { debtors := [{ participant := pC, amount := eps }],
    creditors := [{ participant := pB, amount := 1 / 4 }],
    txns := [{ fromName := "C", toName := "A",
               amount := 5764607523034237 / 576460752303423488 }] }

/-- The balance list of the spec's example scenario (A is owed 60, B
and C each owe 30). -/
def balSpec : List Balance :=
  [{ participant := pA, amount := 60 }, { participant := pB, amount := -30 },
   { participant := pC, amount := -30 }]

/-- Ledger in which B is the sole sharer of A's expense. -/
def stSole : LedgerState :=
  { participants := [pA, pB],
    expenses := [{ id := 20, description := "taxi", amount := 10, currency := "USD",
                   paidById := 1, sharedByIds := [2] }] }

/-- An expense paid by A and shared by A and B. -/
def exHotel : Expense :=
  { id := 21, description := "hotel", amount := 10, currency := "USD",
    paidById := 1, sharedByIds := [1, 2] }

/-- Ledger with an expense shared by both participants. -/
def stShared : LedgerState :=
  { participants := [pA, pB], expenses := [exHotel] }

/-- An expense whose payer id 9 references no participant while its
sharers reference participant 1. -/
def exDangling : Expense :=
  { id := 22, description := "ghost", amount := 8, currency := "USD", paidById := 9,
    sharedByIds := [1] }

/-! ### Balance-map decomposition lemmas -/

theorem applySharers_apply (share : ℚ) (ids : List Nat) (m : Nat → ℚ) (k : Nat) :
    applySharers share ids m k = m k - share * (ids.count k : ℚ) := by
  induction ids generalizing m with
  | nil => simp [applySharers]
  | cons i is ih =>
      have hstep : applySharers share (i :: is) m
          = applySharers share is (Function.update m i (m i - share)) := rfl
      rw [hstep, ih]
      by_cases h : k = i
      · subst h
        simp only [Function.update_same, List.count_cons, beq_self_eq_true, if_true]
        push_cast
        ring
      · have hne : (i == k) = false := by
          simp only [beq_eq_false_iff_ne, ne_eq]
          exact fun hh => h hh.symm
        simp only [Function.update_apply, h, if_false, List.count_cons, hne]
        push_cast
        ring

theorem applyExpense_apply (rt : RateTable) (base : String) (m : Nat → ℚ) (e : Expense)
    (k : Nat) : applyExpense rt base m e k = m k + expenseDelta rt base e k := by
  unfold applyExpense expenseDelta
  cases h : convertToBase rt base e.amount e.currency with
  | none => simp
  | some c =>
      simp only [applySharers_apply]
      by_cases hk : k = e.paidById
      · subst hk
        simp only [Function.update_same, if_true]
        ring
      · simp only [Function.update_apply, hk, if_false]
        ring

theorem foldl_applyExpense (rt : RateTable) (base : String) (es : List Expense)
    (m : Nat → ℚ) (k : Nat) :
    (es.foldl (applyExpense rt base) m) k
      = m k + (es.map (fun e => expenseDelta rt base e k)).sum := by
  induction es generalizing m with
  | nil => simp
  | cons e es ih =>
      simp only [List.foldl_cons, List.map_cons, List.sum_cons, ih, applyExpense_apply]
      ring

theorem balanceMapOf_apply (rt : RateTable) (base : String) (es : List Expense) (k : Nat) :
    balanceMapOf rt base es k = (es.map (fun e => expenseDelta rt base e k)).sum := by
  simpa using foldl_applyExpense rt base es (fun _ => 0) k

theorem sum_map_sub {α : Type} (l : List α) (f g : α → ℚ) :
    (l.map (fun x => f x - g x)).sum = (l.map f).sum - (l.map g).sum := by
  induction l with
  | nil => simp
  | cons a l ih => simp only [List.map_cons, List.sum_cons, ih]; ring

theorem sum_map_sum_comm {α β : Type} (l₁ : List α) (l₂ : List β) (f : α → β → ℚ) :
    (l₁.map (fun a => (l₂.map (f a)).sum)).sum
      = (l₂.map (fun b => (l₁.map (fun a => f a b)).sum)).sum := by
  induction l₁ with
  | nil =>
      simp only [List.map_nil, List.sum_nil]
      rw [eq_comm, List.sum_eq_zero]
      intro x hx
      simp only [List.mem_map] at hx
      obtain ⟨b, _, hb⟩ := hx
      simp [← hb]
  | cons a l ih =>
      simp only [List.map_cons, List.sum_cons, ih, ← List.sum_map_add]

theorem sum_ite_eq_count (ids : List Nat) (t : Nat) (c : ℚ) :
    (ids.map (fun i => if i = t then c else 0)).sum = (ids.count t : ℚ) * c := by
  induction ids with
  | nil => simp
  | cons i is ih =>
      by_cases h : i = t
      · subst h
        simp only [List.map_cons, List.sum_cons, if_true, ih, List.count_cons,
          beq_self_eq_true, if_true]
        push_cast
        ring
      · have hb : (i == t) = false := by
          simpa [beq_eq_false_iff_ne, ne_eq] using h
        simp only [List.map_cons, List.sum_cons, h, if_false, ih, List.count_cons, hb]
        push_cast
        ring

theorem sum_count_of_sub (ids : List Nat) (hids : ids.Nodup) :
    ∀ sharers : List Nat, (∀ s ∈ sharers, s ∈ ids) →
      (ids.map (fun i => (sharers.count i : ℚ))).sum = (sharers.length : ℚ) := by
  intro sharers
  induction sharers with
  | nil => intro _; simp
  | cons s ss ih =>
      intro hsub
      have hs : s ∈ ids := hsub s (List.mem_cons_self s ss)
      have hss : ∀ x ∈ ss, x ∈ ids := fun x hx => hsub x (List.mem_cons_of_mem s hx)
      have hcount : ∀ i : Nat, ((s :: ss).count i : ℚ)
          = (ss.count i : ℚ) + (if i = s then (1 : ℚ) else 0) := by
        intro i
        by_cases h : i = s
        · subst h; simp [List.count_cons]
        · have hb : (i == s) = false := by simpa [beq_eq_false_iff_ne, ne_eq] using h
          simp [List.count_cons, hb, h]
      calc (ids.map (fun i => ((s :: ss).count i : ℚ))).sum
          = (ids.map (fun i => (ss.count i : ℚ) + (if i = s then (1 : ℚ) else 0))).sum := by
            congr 1
            exact List.map_congr_left (fun i _ => hcount i)
        _ = (ids.map (fun i => (ss.count i : ℚ))).sum
              + (ids.map (fun i => if i = s then (1 : ℚ) else 0)).sum := by
            rw [← List.sum_map_add]
        _ = (ss.length : ℚ) + (ids.count s : ℚ) * 1 := by rw [ih hss, sum_ite_eq_count]
        _ = ((s :: ss).length : ℚ) := by
            rw [List.count_eq_one_of_mem hids hs]
            simp only [List.length_cons]
            push_cast
            ring

theorem expenseDelta_of_none {rt : RateTable} {base : String} {e : Expense}
    (h : convertToBase rt base e.amount e.currency = none) (k : Nat) :
    expenseDelta rt base e k = 0 := by
  unfold expenseDelta
  rw [h]

theorem expenseDelta_of_some {rt : RateTable} {base : String} {e : Expense} {c : ℚ}
    (h : convertToBase rt base e.amount e.currency = some c) (k : Nat) :
    expenseDelta rt base e k
      = (if k = e.paidById then c else 0)
          - c / (e.sharedByIds.length : ℚ) * (e.sharedByIds.count k : ℚ) := by
  unfold expenseDelta
  rw [h]

theorem expenseDelta_untouched {rt : RateTable} {base : String} {e : Expense} {k : Nat}
    (hpay : k ≠ e.paidById) (hsh : k ∉ e.sharedByIds) :
    expenseDelta rt base e k = 0 := by
  unfold expenseDelta
  cases convertToBase rt base e.amount e.currency with
  | none => rfl
  | some c => simp [hpay, List.count_eq_zero_of_not_mem hsh]

/-- Summed over a duplicate-free id set that contains every sharer, a
converted expense contributes its converted amount if the payer id is in
the set and nothing otherwise, minus one full converted amount of
debits. -/
theorem deltaSum_of_some {rt : RateTable} {base : String} {e : Expense} {c : ℚ}
    (ids : List Nat) (hids : ids.Nodup)
    (hconv : convertToBase rt base e.amount e.currency = some c)
    (hsh : ∀ s ∈ e.sharedByIds, s ∈ ids) (hne : e.sharedByIds ≠ []) :
    (ids.map (fun i => expenseDelta rt base e i)).sum
      = (if e.paidById ∈ ids then c else 0) - c := by
  have h1 : (ids.map (fun i => expenseDelta rt base e i)).sum
      = (ids.map (fun i => if i = e.paidById then c else 0)).sum
          - (ids.map (fun i =>
              c / (e.sharedByIds.length : ℚ) * (e.sharedByIds.count i : ℚ))).sum := by
    rw [← sum_map_sub]
    congr 1
    exact List.map_congr_left (fun i _ => expenseDelta_of_some hconv i)
  have h2 : (ids.map (fun i =>
      c / (e.sharedByIds.length : ℚ) * (e.sharedByIds.count i : ℚ))).sum
        = c / (e.sharedByIds.length : ℚ) * ((ids.map (fun i => (e.sharedByIds.count i : ℚ))).sum) := by
    rw [← List.sum_map_mul_left]
  have h3 : (ids.map (fun i => (e.sharedByIds.count i : ℚ))).sum = (e.sharedByIds.length : ℚ) :=
    sum_count_of_sub ids hids e.sharedByIds hsh
  have hlen : ((e.sharedByIds.length : ℚ)) ≠ 0 := by
    have : e.sharedByIds.length ≠ 0 := by
      intro h0
      exact hne (List.length_eq_zero.mp h0)
    exact_mod_cast this
  have h4 : (ids.map (fun i => if i = e.paidById then c else 0)).sum
      = (if e.paidById ∈ ids then c else 0) := by
    rw [sum_ite_eq_count]
    by_cases hp : e.paidById ∈ ids
    · rw [List.count_eq_one_of_mem hids hp]
      simp [hp]
    · rw [List.count_eq_zero_of_not_mem hp]
      simp [hp]
  rw [h1, h2, h3, h4, div_mul_cancel₀ _ hlen]

theorem balancesCalc_eq_sort {ps : List Participant} (es : List Expense) (base : String)
    (rt : RateTable) (hps : ps ≠ []) :
    balancesCalc ps es base (some rt) false
      = List.insertionSort (fun a b => b.amount ≤ a.amount)
          (ps.map (fun p => { participant := p, amount := balanceMapOf rt base es p.id })) := by
  unfold balancesCalc
  simp [List.isEmpty_iff, hps]

theorem balancesCalc_perm {ps : List Participant} (es : List Expense) (base : String)
    (rt : RateTable) (hps : ps ≠ []) :
    (balancesCalc ps es base (some rt) false).Perm
      (ps.map (fun p => { participant := p, amount := balanceMapOf rt base es p.id })) := by
  rw [balancesCalc_eq_sort es base rt hps]
  exact List.perm_insertionSort _ _

/-! ### Claim C9 -/

/-- C9: for every amount, base currency and rate table, converting an
amount from the base currency to the base currency returns the amount
unchanged (`some x`), with no rate lookup and no possibility of
failure. -/
theorem C9_identity_conversion (rt : RateTable) (base : String) (x : ℚ) :
    convertToBase rt base x base = some x := by
  simp [convertToBase]

/-! ### Claim C6 -/

/-- C6: with a present, non-error rate table, an expense whose currency
differs from the base currency and has no rate entry is excluded from
the balance computation entirely: the balances over a ledger containing
it equal the balances over the same ledger without it, so every other
expense still contributes normally and nothing is partially applied. -/
theorem C6_missing_rate_skips_expense (ps : List Participant) (es₁ es₂ : List Expense)
    (e : Expense) (base : String) (rt : RateTable)
    (hcur : e.currency ≠ base) (hlook : lookupRate rt e.currency = none) :
    balancesCalc ps (es₁ ++ e :: es₂) base (some rt) false
      = balancesCalc ps (es₁ ++ es₂) base (some rt) false := by
  have hconv : convertToBase rt base e.amount e.currency = none := by
    unfold convertToBase
    rw [if_neg hcur, hlook]
  have happ : applyExpense rt base (List.foldl (applyExpense rt base) (fun _ => 0) es₁) e
      = List.foldl (applyExpense rt base) (fun _ => 0) es₁ := by
    unfold applyExpense
    rw [hconv]
  have hmap : balanceMapOf rt base (es₁ ++ e :: es₂) = balanceMapOf rt base (es₁ ++ es₂) := by
    unfold balanceMapOf
    rw [List.foldl_append, List.foldl_append, List.foldl_cons, happ]
  unfold balancesCalc
  simp only [hmap]

/-- Witness for C6 at a concrete input: an EUR expense with no EUR rate
is dropped from the balances. -/
theorem C6_witness :
    balancesCalc [pA] [exEUR] "USD" (some rtUSD) false
      = balancesCalc [pA] [] "USD" (some rtUSD) false :=
  C6_missing_rate_skips_expense [pA] [] [] exEUR "USD" rtUSD (by decide)
    (by rfl)

/-! ### Claim C7 -/

/-- C7: when the rate table is absent or in the error state, the balance
computation returns the empty list, and for a ledger with at least one
participant this differs from every result computed with an available
rate table (those always contain one entry per participant), so the
unavailable result is distinguishable from the result for a settled
ledger. -/
theorem C7_unavailable_vs_settled (ps : List Participant) (es : List Expense)
    (base : String) (rates : Option RateTable) (err : Bool) (hps : ps ≠ [])
    (hbad : rates = none ∨ err = true) :
    balancesCalc ps es base rates err = []
      ∧ ∀ rt : RateTable, balancesCalc ps es base (some rt) false ≠ [] := by
  constructor
  · rcases hbad with h | h
    · rw [h]
      rfl
    · subst h
      cases rates with
      | none => rfl
      | some rt => simp [balancesCalc]
  · intro rt hempty
    have hlen := (balancesCalc_perm es base rt hps).length_eq
    rw [hempty] at hlen
    simp only [List.length_nil, List.length_map] at hlen
    exact hps (List.length_eq_zero.mp hlen.symm)

/-- Witness for C7 at a concrete input: with one participant, the
absent-rates result is empty while the available-rates result is not. -/
theorem C7_witness :
    balancesCalc [pA] [] "USD" none false = []
      ∧ balancesCalc [pA] [] "USD" (some rtUSD) false ≠ [] := by
  have h := C7_unavailable_vs_settled [pA] [] "USD" none false (by decide) (Or.inl rfl)
  exact ⟨h.1, h.2 rtUSD⟩

/-! ### Claim C1 -/

/-- C1: for every participant list with duplicate-free ids and every
expense list in which each expense has a non-empty sharer list, a live
payer and live sharers, and a rate table that supplies a positive rate
for every non-base currency in use (so no conversion fails), the sum of
the amounts of the returned balances is exactly 0, and in particular is
0 within eps. -/
theorem C1_zero_sum (ps : List Participant) (es : List Expense) (base : String)
    (rt : RateTable)
    (hnodup : (ps.map Participant.id).Nodup)
    (hlive : ∀ e ∈ es, e.paidById ∈ ps.map Participant.id
      ∧ ∀ s ∈ e.sharedByIds, s ∈ ps.map Participant.id)
    (hne : ∀ e ∈ es, e.sharedByIds ≠ [])
    (hrate : ∀ e ∈ es, e.currency = base ∨ ∃ r, lookupRate rt e.currency = some r ∧ 0 < r) :
    ((balancesCalc ps es base (some rt) false).map Balance.amount).sum = 0
      ∧ |((balancesCalc ps es base (some rt) false).map Balance.amount).sum| ≤ eps := by
  have hzero : ((balancesCalc ps es base (some rt) false).map Balance.amount).sum = 0 := by
    by_cases hps : ps = []
    · subst hps
      rfl
    · have hperm := (balancesCalc_perm es base rt hps).map Balance.amount
      rw [hperm.sum_eq, List.map_map]
      have hrw : (ps.map (Balance.amount ∘ fun p =>
          { participant := p, amount := balanceMapOf rt base es p.id })).sum
            = ((ps.map Participant.id).map (fun i => balanceMapOf rt base es i)).sum := by
        rw [List.map_map]
        rfl
      rw [hrw]
      have hrw2 : ((ps.map Participant.id).map (fun i => balanceMapOf rt base es i)).sum
          = ((ps.map Participant.id).map (fun i =>
              (es.map (fun e => expenseDelta rt base e i)).sum)).sum := by
        congr 1
        exact List.map_congr_left (fun i _ => balanceMapOf_apply rt base es i)
      rw [hrw2, sum_map_sum_comm]
      rw [List.sum_eq_zero]
      intro x hx
      simp only [List.mem_map] at hx
      obtain ⟨e, he, rfl⟩ := hx
      obtain ⟨c, hconv⟩ : ∃ c, convertToBase rt base e.amount e.currency = some c := by
        by_cases hcb : e.currency = base
        · exact ⟨e.amount, by unfold convertToBase; rw [if_pos hcb]⟩
        · rcases hrate e he with h | ⟨r, hr, _⟩
          · exact absurd h hcb
          · exact ⟨e.amount * r, by unfold convertToBase; rw [if_neg hcb, hr]⟩
      rw [deltaSum_of_some (ps.map Participant.id) hnodup hconv (hlive e he).2 (hne e he)]
      rw [if_pos (hlive e he).1]
      ring
  refine ⟨hzero, ?_⟩
  rw [hzero]
  simp only [abs_zero]
  norm_num [eps]

/-- Witness for C1 at the spec's example ledger: A pays 90 shared by
A, B, C in the base currency. -/
theorem C1_witness :
    |((balancesCalc [pA, pB, pC] [exSpec] "USD" (some rtUSD) false).map
        Balance.amount).sum| ≤ eps := by
  refine (C1_zero_sum [pA, pB, pC] [exSpec] "USD" rtUSD (by decide) ?_ (by decide) ?_).2
  · intro e he
    simp only [List.mem_singleton] at he
    subst he
    refine ⟨by decide, by decide⟩
  · intro e he
    simp only [List.mem_singleton] at he
    subst he
    exact Or.inl rfl

/-! ### Claim C8 -/

/-- C8: whenever the computation runs with an available, non-error rate
table, it returns exactly one Balance per participant (the participants
of the output are a permutation of the participant list), participants
referenced by no expense get balance 0, and the output is ordered by
amount descending. -/
theorem C8_balances_shape (ps : List Participant) (es : List Expense) (base : String)
    (rt : RateTable) :
    ((balancesCalc ps es base (some rt) false).map Balance.participant).Perm ps
    ∧ (∀ b ∈ balancesCalc ps es base (some rt) false,
        (∀ e ∈ es, b.participant.id ≠ e.paidById ∧ b.participant.id ∉ e.sharedByIds) →
          b.amount = 0)
    ∧ (balancesCalc ps es base (some rt) false).Sorted (fun a b => b.amount ≤ a.amount) := by
  by_cases hps : ps = []
  · subst hps
    have h0 : balancesCalc [] es base (some rt) false = [] := rfl
    rw [h0]
    exact ⟨List.Perm.nil, fun b hb => absurd hb (List.not_mem_nil b), List.sorted_nil⟩
  · have perm := balancesCalc_perm es base rt hps
    refine ⟨?_, ?_, ?_⟩
    · have h := perm.map Balance.participant
      rw [List.map_map] at h
      have hmap : List.map (Balance.participant ∘ fun p =>
          { participant := p, amount := balanceMapOf rt base es p.id }) ps = ps := by
        simp [Function.comp_def]
      rw [hmap] at h
      exact h
    · intro b hb hno
      have hmem : b ∈ ps.map (fun p =>
          { participant := p, amount := balanceMapOf rt base es p.id }) := perm.mem_iff.mp hb
      simp only [List.mem_map] at hmem
      obtain ⟨p, _, rfl⟩ := hmem
      show balanceMapOf rt base es p.id = 0
      rw [balanceMapOf_apply]
      apply List.sum_eq_zero
      intro x hx
      simp only [List.mem_map] at hx
      obtain ⟨e, he, rfl⟩ := hx
      exact expenseDelta_untouched (hno e he).1 (hno e he).2
    · rw [balancesCalc_eq_sort es base rt hps]
      exact List.sorted_insertionSort _ _

/-- Witness for C8 at a concrete input: two participants, one expense
involving only A, so B keeps balance 0; the output is a permutation of
the participants and sorted. -/
theorem C8_witness :
    ((balancesCalc [pA, pB] [exOnlyA] "USD" (some rtUSD) false).map
        Balance.participant).Perm [pA, pB]
    ∧ ({ participant := pB, amount := 0 } : Balance).amount = 0
    ∧ (balancesCalc [pA, pB] [exOnlyA] "USD" (some rtUSD) false).Sorted
        (fun a b => b.amount ≤ a.amount) := by
  obtain ⟨h1, h2, h3⟩ := C8_balances_shape [pA, pB] [exOnlyA] "USD" rtUSD
  refine ⟨h1, ?_, h3⟩
  have hm1 : balanceMapOf rtUSD "USD" [exOnlyA] 1 = 0 := by
    norm_num [balanceMapOf, applyExpense, applySharers, convertToBase, lookupRate,
      Function.update, exOnlyA, rtUSD]
  have hm2 : balanceMapOf rtUSD "USD" [exOnlyA] 2 = 0 := by
    norm_num [balanceMapOf, applyExpense, applySharers, convertToBase, lookupRate,
      Function.update, exOnlyA, rtUSD]
  have hev : balancesCalc [pA, pB] [exOnlyA] "USD" (some rtUSD) false
      = [{ participant := pA, amount := 0 }, { participant := pB, amount := 0 }] := by
    norm_num [balancesCalc, pA, pB, hm1, hm2, List.insertionSort, List.orderedInsert]
  refine h2 { participant := pB, amount := 0 } ?_ ?_
  · rw [hev]
    simp
  · intro e he
    simp only [List.mem_singleton] at he
    subst he
    exact ⟨by decide, by decide⟩

/-! ### Claim C4 -/

/-- C4: `removeParticipant id` removes the participant with that id (and
only it), removes `id` from every surviving expense's sharer list, and
keeps exactly those expenses whose payer is not `id` and whose sharer
list is non-empty after the removal; in particular no surviving expense
has an empty sharer list, so removing the sole sharer of an expense
deletes the expense entirely. -/
theorem C4_removeParticipant (st : LedgerState) (id : Nat) :
    (∀ p : Participant, p ∈ (removeParticipant id st).participants ↔
        p ∈ st.participants ∧ p.id ≠ id)
    ∧ (∀ e ∈ (removeParticipant id st).expenses,
        id ∉ e.sharedByIds ∧ e.paidById ≠ id ∧ e.sharedByIds ≠ [])
    ∧ (∀ e ∈ st.expenses, e.paidById ≠ id →
        e.sharedByIds.filter (fun pId => pId != id) ≠ [] →
          { e with sharedByIds := e.sharedByIds.filter (fun pId => pId != id) }
            ∈ (removeParticipant id st).expenses) := by
  refine ⟨?_, ?_, ?_⟩
  · intro p
    simp [removeParticipant, List.mem_filter]
  · intro e he
    simp only [removeParticipant, List.mem_filter, List.mem_map, Bool.and_eq_true,
      bne_iff_ne, ne_eq] at he
    obtain ⟨⟨ex, _, rfl⟩, hpay, hlen⟩ := he
    refine ⟨?_, hpay, ?_⟩
    · intro hmem
      have hpred := List.of_mem_filter hmem
      simp at hpred
    · intro hnil
      rw [hnil] at hlen
      exact hlen rfl
  · intro e he hpay hfil
    simp only [removeParticipant, List.mem_filter, List.mem_map, Bool.and_eq_true,
      bne_iff_ne, ne_eq]
    refine ⟨⟨e, he, rfl⟩, hpay, ?_⟩
    intro hlen
    exact hfil (List.length_eq_zero.mp hlen)

/-- Witness for C4 at a concrete input: removing participant 2 from a
ledger where the expense is shared by 1 and 2 keeps the expense with the
stripped sharer list, and keeps participant A. -/
theorem C4_witness :
    ({ exHotel with sharedByIds := exHotel.sharedByIds.filter (fun pId => pId != 2) } : Expense)
      ∈ (removeParticipant 2 stShared).expenses
    ∧ pA ∈ (removeParticipant 2 stShared).participants := by
  obtain ⟨h1, h2, h3⟩ := C4_removeParticipant stShared 2
  constructor
  · exact h3 exHotel (by simp [stShared]) (by decide) (by decide)
  · exact (h1 pA).mpr ⟨by simp [stShared], by decide⟩

/-! ### Claim C5 -/

/-- C5 counterexample: the submission pipeline accepts an expense whose
payer id 5 references no live participant (the participant list `[pA]`
only contains id 1) and appends it, instead of failing: no liveness
check exists in either `handleSubmit` or `addExpense`. -/
theorem C5_counterexample :
    handleSubmit [] "Taxi" 10 "USD" (some 5) [1] 777
      = some [{ id := 777, description := "Taxi", amount := 10, currency := "USD",
                paidById := 5, sharedByIds := [1] }]
    ∧ (5 : Nat) ∉ [pA].map Participant.id := by
  constructor
  · unfold handleSubmit
    rw [if_pos]
    · rfl
    · exact ⟨by decide, by norm_num, by decide, by decide⟩
  · decide

/-- C5 (amended): the submission is rejected (nothing is appended)
whenever the amount is non-positive, the sharer list is empty, the
description is empty, or no payer is selected; when all four checks pass
the expense is appended with the supplied timestamp id.  Liveness of the
payer and sharer references is not checked anywhere. -/
theorem C5_amended (expenses : List Expense) (description : String) (amount : ℚ)
    (currency : String) (paidById : Option Nat) (sharedByIds : List Nat) (now : Nat) :
    ((amount ≤ 0 ∨ sharedByIds = [] ∨ description = "" ∨ truthyId paidById = false) →
        handleSubmit expenses description amount currency paidById sharedByIds now = none)
    ∧ (description ≠ "" → 0 < amount → truthyId paidById = true → sharedByIds ≠ [] →
        handleSubmit expenses description amount currency paidById sharedByIds now
          = some (expenses ++
              [{ id := now, description := description, amount := amount, currency := currency,
                 paidById := paidById.getD 0, sharedByIds := sharedByIds }])) := by
  constructor
  · intro h
    unfold handleSubmit
    rw [if_neg]
    rintro ⟨hd, ha, ht, hs⟩
    rcases h with h | h | h | h
    · exact absurd ha (not_lt.mpr h)
    · exact hs h
    · exact hd h
    · rw [ht] at h
      exact Bool.noConfusion h
  · intro hd ha ht hs
    unfold handleSubmit
    rw [if_pos ⟨hd, ha, ht, hs⟩]
    rfl

/-- Witness for the amended C5: a rejected non-positive amount and an
accepted well-formed submission. -/
theorem C5_amended_witness :
    handleSubmit [] "x" (-1) "USD" (some 1) [1] 5 = none
    ∧ handleSubmit [] "Taxi" 10 "USD" (some 1) [1] 5
        = some [{ id := 5, description := "Taxi", amount := 10, currency := "USD",
                  paidById := 1, sharedByIds := [1] }] := by
  constructor
  · exact (C5_amended [] "x" (-1) "USD" (some 1) [1] 5).1 (Or.inl (by norm_num))
  · exact (C5_amended [] "Taxi" 10 "USD" (some 1) [1] 5).2 (by decide) (by norm_num)
      (by decide) (by decide)

/-! ### Claim C10 -/

theorem balancesSum_delta (ps : List Participant) (es : List Expense) (base : String)
    (rt : RateTable) (hps : ps ≠ []) :
    ((balancesCalc ps es base (some rt) false).map Balance.amount).sum
      = (es.map (fun e =>
          ((ps.map Participant.id).map (fun i => expenseDelta rt base e i)).sum)).sum := by
  have hperm := (balancesCalc_perm es base rt hps).map Balance.amount
  rw [hperm.sum_eq, List.map_map]
  have hrw : (ps.map (Balance.amount ∘ fun p =>
      { participant := p, amount := balanceMapOf rt base es p.id })).sum
        = ((ps.map Participant.id).map (fun i => balanceMapOf rt base es i)).sum := by
    rw [List.map_map]
    rfl
  rw [hrw]
  have hrw2 : ((ps.map Participant.id).map (fun i => balanceMapOf rt base es i)).sum
      = ((ps.map Participant.id).map (fun i =>
          (es.map (fun e => expenseDelta rt base e i)).sum)).sum := by
    congr 1
    exact List.map_congr_left (fun i _ => balanceMapOf_apply rt base es i)
  rw [hrw2, sum_map_sum_comm]

theorem deltaSum_live_zero (ps : List Participant) (rt : RateTable) (base : String)
    (e' : Expense) (hnodup : (ps.map Participant.id).Nodup)
    (h1 : e'.paidById ∈ ps.map Participant.id)
    (h2 : ∀ s ∈ e'.sharedByIds, s ∈ ps.map Participant.id)
    (h3 : e'.sharedByIds ≠ []) :
    ((ps.map Participant.id).map (fun i => expenseDelta rt base e' i)).sum = 0 := by
  cases hconv : convertToBase rt base e'.amount e'.currency with
  | none =>
      apply List.sum_eq_zero
      intro x hx
      simp only [List.mem_map] at hx
      obtain ⟨i, _, rfl⟩ := hx
      exact expenseDelta_of_none hconv i
  | some c' =>
      rw [deltaSum_of_some (ps.map Participant.id) hnodup hconv h2 h3, if_pos h1]
      ring

/-- C10: when one expense's payer id references no live participant
while all its sharers are live and its currency converts, the balance
computation (over an otherwise well-formed ledger with duplicate-free
participant ids) does not crash and does not skip the expense: the
output still has exactly one entry per live participant, each listed
sharer is debited the per-occurrence share relative to the ledger
without that expense, the payer's credit is recorded under the dangling
id and dropped from the output, and hence the sum of the returned
amounts equals minus the converted amount of that expense. -/
theorem C10_dangling_payer (ps : List Participant) (es₁ es₂ : List Expense) (e : Expense)
    (base : String) (rt : RateTable) (c : ℚ)
    (hnodup : (ps.map Participant.id).Nodup)
    (hdead : e.paidById ∉ ps.map Participant.id)
    (hsh : ∀ s ∈ e.sharedByIds, s ∈ ps.map Participant.id)
    (hne : e.sharedByIds ≠ [])
    (hconv : convertToBase rt base e.amount e.currency = some c)
    (hrest : ∀ e' ∈ es₁ ++ es₂, e'.paidById ∈ ps.map Participant.id
      ∧ (∀ s ∈ e'.sharedByIds, s ∈ ps.map Participant.id) ∧ e'.sharedByIds ≠ []) :
    ((balancesCalc ps (es₁ ++ e :: es₂) base (some rt) false).map Balance.participant).Perm ps
    ∧ ((balancesCalc ps (es₁ ++ e :: es₂) base (some rt) false).map Balance.amount).sum = -c
    ∧ ∀ b ∈ balancesCalc ps (es₁ ++ e :: es₂) base (some rt) false,
        b.amount = balanceMapOf rt base (es₁ ++ es₂) b.participant.id
          - c / (e.sharedByIds.length : ℚ) * (e.sharedByIds.count b.participant.id : ℚ) := by
  have hps : ps ≠ [] := by
    obtain ⟨s, hs⟩ := List.exists_mem_of_ne_nil e.sharedByIds hne
    have := hsh s hs
    intro h
    rw [h] at this
    simp at this
  refine ⟨?_, ?_, ?_⟩
  · have perm := balancesCalc_perm (es₁ ++ e :: es₂) base rt hps
    have h := perm.map Balance.participant
    rw [List.map_map] at h
    have hmap : List.map (Balance.participant ∘ fun p =>
        { participant := p, amount := balanceMapOf rt base (es₁ ++ e :: es₂) p.id }) ps = ps := by
      simp [Function.comp_def]
    rw [hmap] at h
    exact h
  · rw [balancesSum_delta ps (es₁ ++ e :: es₂) base rt hps]
    rw [List.map_append, List.sum_append, List.map_cons, List.sum_cons]
    have hzero : ∀ es' : List Expense, (∀ e' ∈ es', e' ∈ es₁ ++ es₂) →
        (es'.map (fun e' =>
          ((ps.map Participant.id).map (fun i => expenseDelta rt base e' i)).sum)).sum = 0 := by
      intro es' hsub
      apply List.sum_eq_zero
      intro x hx
      simp only [List.mem_map] at hx
      obtain ⟨e', he', rfl⟩ := hx
      obtain ⟨ha, hb, hc⟩ := hrest e' (hsub e' he')
      exact deltaSum_live_zero ps rt base e' hnodup ha hb hc
    rw [hzero es₁ (fun x hx => List.mem_append_left es₂ hx),
      hzero es₂ (fun x hx => List.mem_append_right es₁ hx)]
    rw [deltaSum_of_some (ps.map Participant.id) hnodup hconv hsh hne, if_neg hdead]
    ring
  · intro b hb
    have perm := balancesCalc_perm (es₁ ++ e :: es₂) base rt hps
    have hmem : b ∈ ps.map (fun p =>
        { participant := p, amount := balanceMapOf rt base (es₁ ++ e :: es₂) p.id }) :=
      perm.mem_iff.mp hb
    simp only [List.mem_map] at hmem
    obtain ⟨p, hp, rfl⟩ := hmem
    show balanceMapOf rt base (es₁ ++ e :: es₂) p.id
      = balanceMapOf rt base (es₁ ++ es₂) p.id
          - c / (e.sharedByIds.length : ℚ) * (e.sharedByIds.count p.id : ℚ)
    rw [balanceMapOf_apply, balanceMapOf_apply]
    rw [List.map_append, List.sum_append, List.map_cons, List.sum_cons,
      List.map_append, List.sum_append]
    have hdelta : expenseDelta rt base e p.id
        = -(c / (e.sharedByIds.length : ℚ) * (e.sharedByIds.count p.id : ℚ)) := by
      rw [expenseDelta_of_some hconv]
      have hpne : p.id ≠ e.paidById := by
        intro hcontra
        exact hdead (hcontra ▸ List.mem_map_of_mem Participant.id hp)
      rw [if_neg hpne]
      ring
    rw [hdelta]
    ring

/-- Witness for C10 at a concrete input: participant A, one expense with
dangling payer 9 shared by A; A is debited the full converted amount and
the output sums to minus that amount. -/
theorem C10_witness :
    ((balancesCalc [pA] [exDangling] "USD" (some rtUSD) false).map Balance.amount).sum = -8
    ∧ ({ participant := pA, amount := -8 } : Balance).amount
        = balanceMapOf rtUSD "USD" ([] ++ [])
            ({ participant := pA, amount := -8 } : Balance).participant.id
          - 8 / (exDangling.sharedByIds.length : ℚ)
              * (exDangling.sharedByIds.count
                  ({ participant := pA, amount := -8 } : Balance).participant.id : ℚ) := by
  have hconv : convertToBase rtUSD "USD" exDangling.amount exDangling.currency = some 8 := rfl
  have hrest : ∀ e' ∈ ([] ++ [] : List Expense), e'.paidById ∈ [pA].map Participant.id
      ∧ (∀ s ∈ e'.sharedByIds, s ∈ [pA].map Participant.id) ∧ e'.sharedByIds ≠ [] := by
    intro e' he'
    exact absurd he' (List.not_mem_nil e')
  obtain ⟨h1, h2, h3⟩ := C10_dangling_payer [pA] [] [] exDangling "USD" rtUSD 8
    (by decide) (by decide) (by decide) (by decide) hconv hrest
  refine ⟨h2, ?_⟩
  apply h3
  have hm : balanceMapOf rtUSD "USD" [exDangling] 1 = -8 := by
    norm_num [balanceMapOf, applyExpense, applySharers, convertToBase, lookupRate,
      Function.update, exDangling, rtUSD]
  have hev : balancesCalc [pA] [exDangling] "USD" (some rtUSD) false
      = [{ participant := pA, amount := -8 }] := by
    norm_num [balancesCalc, pA, hm, List.insertionSort, List.orderedInsert]
  rw [List.nil_append, hev]
  simp

/-! ### Settlement aggregation lemmas -/

theorem outSum_nil (name : String) : outSum [] name = 0 := rfl

theorem inSum_nil (name : String) : inSum [] name = 0 := rfl

theorem outSum_cons (t : Txn) (ts : List Txn) (name : String) :
    outSum (t :: ts) name = (if t.fromName == name then t.amount else 0) + outSum ts name := by
  by_cases h : t.fromName == name <;> simp [outSum, List.filter_cons, h]

theorem inSum_cons (t : Txn) (ts : List Txn) (name : String) :
    inSum (t :: ts) name = (if t.toName == name then t.amount else 0) + inSum ts name := by
  by_cases h : t.toName == name <;> simp [inSum, List.filter_cons, h]

theorem outSum_append (t1 t2 : List Txn) (name : String) :
    outSum (t1 ++ t2) name = outSum t1 name + outSum t2 name := by
  simp [outSum, List.filter_append]

theorem inSum_append (t1 t2 : List Txn) (name : String) :
    inSum (t1 ++ t2) name = inSum t1 name + inSum t2 name := by
  simp [inSum, List.filter_append]

theorem nameTotal_nil (name : String) : nameTotal [] name = 0 := rfl

theorem nameTotal_cons (b : Balance) (l : List Balance) (name : String) :
    nameTotal (b :: l) name
      = (if b.participant.name == name then b.amount else 0) + nameTotal l name := by
  by_cases h : b.participant.name == name <;> simp [nameTotal, List.filter_cons, h]

theorem nameTotal_nonneg {l : List Balance} (h : ∀ b ∈ l, 0 ≤ b.amount) (name : String) :
    0 ≤ nameTotal l name := by
  induction l with
  | nil => simp [nameTotal_nil]
  | cons b bs ih =>
      rw [nameTotal_cons]
      have hb := h b (List.mem_cons_self b bs)
      have hbs := ih (fun x hx => h x (List.mem_cons_of_mem b hx))
      by_cases hm : b.participant.name == name
      · simp only [hm, if_true]
        linarith
      · simp only [hm, Bool.false_eq_true, if_false]
        linarith

theorem nameTotal_eq_sum_ite (l : List Balance) (name : String) :
    nameTotal l name
      = (l.map (fun b => if b.participant.name == name then b.amount else 0)).sum := by
  induction l with
  | nil => simp [nameTotal_nil]
  | cons b bs ih => rw [nameTotal_cons, List.map_cons, List.sum_cons, ih]

theorem creditorsOf_nonneg (bs : List Balance) : ∀ b ∈ creditorsOf bs, 0 ≤ b.amount := by
  intro b hb
  have := List.of_mem_filter hb
  simp only [decide_eq_true_eq] at this
  have heps : (0 : ℚ) < eps := by norm_num [eps]
  linarith

theorem debtorsOf_nonneg (bs : List Balance) : ∀ b ∈ debtorsOf bs, 0 ≤ b.amount := by
  intro b hb
  simp only [debtorsOf, List.mem_map] at hb
  obtain ⟨x, _, rfl⟩ := hb
  exact abs_nonneg x.amount

/-! ### Simplified-settlement loop invariants -/

theorem simpStep_eq (d c : Balance) (ds cs : List Balance) (txns : List Txn) :
    simpStep { debtors := d :: ds, creditors := c :: cs, txns := txns } =
      if eps < min d.amount c.amount then
        { debtors :=
            if d.amount - min d.amount c.amount < eps then ds
            else { d with amount := d.amount - min d.amount c.amount } :: ds,
          creditors :=
            if c.amount - min d.amount c.amount < eps then cs
            else { c with amount := c.amount - min d.amount c.amount } :: cs,
          txns := txns ++
            [{ fromName := d.participant.name, toName := c.participant.name,
               amount := min d.amount c.amount }] }
      else
        { debtors := if d.amount < eps then ds else d :: ds,
          creditors := if c.amount < eps then cs else c :: cs,
          txns := txns } := by
  by_cases h : eps < min d.amount c.amount <;> simp [simpStep, h]

theorem simpStep_nonneg (s : SimpState)
    (hd : ∀ b ∈ s.debtors, 0 ≤ b.amount) (hc : ∀ b ∈ s.creditors, 0 ≤ b.amount) :
    (∀ b ∈ (simpStep s).debtors, 0 ≤ b.amount)
      ∧ ∀ b ∈ (simpStep s).creditors, 0 ≤ b.amount := by
  obtain ⟨dl, cl, txns⟩ := s
  cases dl with
  | nil => exact ⟨hd, hc⟩
  | cons d ds =>
    cases cl with
    | nil => exact ⟨hd, hc⟩
    | cons c cs =>
      have hd0 : 0 ≤ d.amount := hd d (List.mem_cons_self d ds)
      have hc0 : 0 ≤ c.amount := hc c (List.mem_cons_self c cs)
      have hds : ∀ b ∈ ds, 0 ≤ b.amount := fun b hb => hd b (List.mem_cons_of_mem d hb)
      have hcs : ∀ b ∈ cs, 0 ≤ b.amount := fun b hb => hc b (List.mem_cons_of_mem c hb)
      have hmin_d : min d.amount c.amount ≤ d.amount := min_le_left _ _
      have hmin_c : min d.amount c.amount ≤ c.amount := min_le_right _ _
      rw [simpStep_eq]
      by_cases hemit : eps < min d.amount c.amount
      · rw [if_pos hemit]
        constructor
        · by_cases hdrop : d.amount - min d.amount c.amount < eps
          · simpa [hdrop] using hds
          · simp only [hdrop, if_false]
            intro b hb
            rcases List.mem_cons.mp hb with rfl | hb
            · simp only []
              exact sub_nonneg.mpr hmin_d
            · exact hds b hb
        · by_cases hdrop : c.amount - min d.amount c.amount < eps
          · simpa [hdrop] using hcs
          · simp only [hdrop, if_false]
            intro b hb
            rcases List.mem_cons.mp hb with rfl | hb
            · simp only []
              exact sub_nonneg.mpr hmin_c
            · exact hcs b hb
      · rw [if_neg hemit]
        constructor
        · by_cases hdrop : d.amount < eps
          · simpa [hdrop] using hds
          · simp only [hdrop, if_false]
            intro b hb
            rcases List.mem_cons.mp hb with rfl | hb
            · exact hd0
            · exact hds b hb
        · by_cases hdrop : c.amount < eps
          · simpa [hdrop] using hcs
          · simp only [hdrop, if_false]
            intro b hb
            rcases List.mem_cons.mp hb with rfl | hb
            · exact hc0
            · exact hcs b hb

theorem simpStep_phi_d (s : SimpState)
    (hd : ∀ b ∈ s.debtors, 0 ≤ b.amount) (name : String) :
    outSum (simpStep s).txns name + nameTotal (simpStep s).debtors name
      ≤ outSum s.txns name + nameTotal s.debtors name := by
  obtain ⟨dl, cl, txns⟩ := s
  cases dl with
  | nil => simp [simpStep]
  | cons d ds =>
    cases cl with
    | nil => simp [simpStep]
    | cons c cs =>
      have hd0 : 0 ≤ d.amount := hd d (List.mem_cons_self d ds)
      have hmin_d : min d.amount c.amount ≤ d.amount := min_le_left _ _
      rw [simpStep_eq]
      by_cases hemit : eps < min d.amount c.amount
      · rw [if_pos hemit]
        simp only [outSum_append, outSum_cons, outSum_nil, nameTotal_cons]
        by_cases hdrop : d.amount - min d.amount c.amount < eps
        · rw [if_pos hdrop]
          by_cases hm : (d.participant.name == name) = true
          · simp only [hm, if_true]
            linarith
          · simp only [hm, Bool.false_eq_true, if_false]
            linarith
        · rw [if_neg hdrop]
          simp only [nameTotal_cons]
          by_cases hm : (d.participant.name == name) = true
          · simp only [hm, if_true]
            linarith
          · simp only [hm, Bool.false_eq_true, if_false]
            linarith
      · rw [if_neg hemit]
        simp only [nameTotal_cons]
        by_cases hdrop : d.amount < eps
        · rw [if_pos hdrop]
          by_cases hm : (d.participant.name == name) = true
          · simp only [hm, if_true]
            linarith
          · simp only [hm, Bool.false_eq_true, if_false]
            linarith
        · rw [if_neg hdrop]
          simp only [nameTotal_cons]
          linarith

theorem simpStep_phi_c (s : SimpState)
    (hc : ∀ b ∈ s.creditors, 0 ≤ b.amount) (name : String) :
    inSum (simpStep s).txns name + nameTotal (simpStep s).creditors name
      ≤ inSum s.txns name + nameTotal s.creditors name := by
  obtain ⟨dl, cl, txns⟩ := s
  cases dl with
  | nil => simp [simpStep]
  | cons d ds =>
    cases cl with
    | nil => simp [simpStep]
    | cons c cs =>
      have hc0 : 0 ≤ c.amount := hc c (List.mem_cons_self c cs)
      have hmin_c : min d.amount c.amount ≤ c.amount := min_le_right _ _
      rw [simpStep_eq]
      by_cases hemit : eps < min d.amount c.amount
      · rw [if_pos hemit]
        simp only [inSum_append, inSum_cons, inSum_nil, nameTotal_cons]
        by_cases hdrop : c.amount - min d.amount c.amount < eps
        · rw [if_pos hdrop]
          by_cases hm : (c.participant.name == name) = true
          · simp only [hm, if_true]
            linarith
          · simp only [hm, Bool.false_eq_true, if_false]
            linarith
        · rw [if_neg hdrop]
          simp only [nameTotal_cons]
          by_cases hm : (c.participant.name == name) = true
          · simp only [hm, if_true]
            linarith
          · simp only [hm, Bool.false_eq_true, if_false]
            linarith
      · rw [if_neg hemit]
        simp only [nameTotal_cons]
        by_cases hdrop : c.amount < eps
        · rw [if_pos hdrop]
          by_cases hm : (c.participant.name == name) = true
          · simp only [hm, if_true]
            linarith
          · simp only [hm, Bool.false_eq_true, if_false]
            linarith
        · rw [if_neg hdrop]
          simp only [nameTotal_cons]
          linarith

theorem simpRun_done {s : SimpState} (h : simpDone s = true) (fuel : Nat) :
    simpRun fuel s = some s.txns := by
  unfold simpRun
  rw [if_pos h]

theorem simpRun_zero {s : SimpState} (h : simpDone s = false) :
    simpRun 0 s = none := by
  unfold simpRun
  rw [if_neg (by rw [h]; exact Bool.noConfusion)]

theorem simpRun_succ {s : SimpState} (h : simpDone s = false) (fuel : Nat) :
    simpRun (fuel + 1) s = simpRun fuel (simpStep s) := by
  conv_lhs => unfold simpRun
  rw [if_neg (by rw [h]; exact Bool.noConfusion)]

theorem simpDone_false_iff (s : SimpState) :
    simpDone s = false ↔ s.debtors ≠ [] ∧ s.creditors ≠ [] := by
  unfold simpDone
  rw [Bool.or_eq_false_iff]
  constructor
  · rintro ⟨h1, h2⟩
    exact ⟨fun h => by rw [h] at h1; exact Bool.noConfusion h1,
           fun h => by rw [h] at h2; exact Bool.noConfusion h2⟩
  · rintro ⟨h1, h2⟩
    constructor
    · cases hl : s.debtors with
      | nil => exact absurd hl h1
      | cons a l => rfl
    · cases hl : s.creditors with
      | nil => exact absurd hl h2
      | cons a l => rfl

theorem simpRun_conservation : ∀ (fuel : Nat) (s : SimpState) (txns : List Txn),
    simpRun fuel s = some txns →
    (∀ b ∈ s.debtors, 0 ≤ b.amount) → (∀ b ∈ s.creditors, 0 ≤ b.amount) →
    ∀ name : String,
      outSum txns name ≤ outSum s.txns name + nameTotal s.debtors name
        ∧ inSum txns name ≤ inSum s.txns name + nameTotal s.creditors name := by
  intro fuel
  induction fuel with
  | zero =>
      intro s txns hrun hd hc name
      by_cases hdone : simpDone s = true
      · rw [simpRun_done hdone] at hrun
        obtain rfl : s.txns = txns := Option.some.injEq _ _ ▸ hrun
        exact ⟨le_add_of_nonneg_right (nameTotal_nonneg hd name),
               le_add_of_nonneg_right (nameTotal_nonneg hc name)⟩
      · rw [simpRun_zero (Bool.not_eq_true _ ▸ Bool.of_not_eq_true hdone)] at hrun
        exact absurd hrun (by simp)
  | succ fuel ih =>
      intro s txns hrun hd hc name
      by_cases hdone : simpDone s = true
      · rw [simpRun_done hdone] at hrun
        obtain rfl : s.txns = txns := Option.some.injEq _ _ ▸ hrun
        exact ⟨le_add_of_nonneg_right (nameTotal_nonneg hd name),
               le_add_of_nonneg_right (nameTotal_nonneg hc name)⟩
      · have hdone' : simpDone s = false := Bool.of_not_eq_true hdone
        rw [simpRun_succ hdone'] at hrun
        obtain ⟨hd', hc'⟩ := simpStep_nonneg s hd hc
        obtain ⟨h1, h2⟩ := ih (simpStep s) txns hrun hd' hc' name
        have hphi_d := simpStep_phi_d s hd name
        have hphi_c := simpStep_phi_c s hc name
        exact ⟨by linarith, by linarith⟩

theorem simpStep_progress (s : SimpState) (h : simpDone s = false) :
    ((simpStep s).txns.length = s.txns.length
        ∧ (simpStep s).debtors.length + (simpStep s).creditors.length
            ≤ s.debtors.length + s.creditors.length)
    ∨ ((simpStep s).txns.length = s.txns.length + 1
        ∧ (simpStep s).debtors.length + (simpStep s).creditors.length + 1
            ≤ s.debtors.length + s.creditors.length) := by
  obtain ⟨hdl, hcl⟩ := (simpDone_false_iff s).mp h
  obtain ⟨dl, cl, txns⟩ := s
  cases dl with
  | nil => exact absurd rfl hdl
  | cons d ds =>
    cases cl with
    | nil => exact absurd rfl hcl
    | cons c cs =>
      have heps : (0 : ℚ) < eps := by norm_num [eps]
      rw [simpStep_eq]
      by_cases hemit : eps < min d.amount c.amount
      · right
        rw [if_pos hemit]
        constructor
        · simp
        · rcases min_cases d.amount c.amount with ⟨hmin, _⟩ | ⟨hmin, _⟩
          · have hdrop : d.amount - min d.amount c.amount < eps := by
              rw [hmin]
              simpa using heps
            rw [if_pos hdrop]
            have : (if c.amount - min d.amount c.amount < eps then cs
                else { c with amount := c.amount - min d.amount c.amount } :: cs).length
                  ≤ cs.length + 1 := by
              by_cases hdc : c.amount - min d.amount c.amount < eps
              · simp [hdc]
              · simp [hdc]
            simp only [List.length_cons]
            omega
          · have hdrop : c.amount - min d.amount c.amount < eps := by
              rw [hmin]
              simpa using heps
            rw [if_pos hdrop]
            have : (if d.amount - min d.amount c.amount < eps then ds
                else { d with amount := d.amount - min d.amount c.amount } :: ds).length
                  ≤ ds.length + 1 := by
              by_cases hdd : d.amount - min d.amount c.amount < eps
              · simp [hdd]
              · simp [hdd]
            simp only [List.length_cons]
            omega
      · left
        rw [if_neg hemit]
        refine ⟨rfl, ?_⟩
        have h1 : (if d.amount < eps then ds else d :: ds).length ≤ ds.length + 1 := by
          by_cases hdd : d.amount < eps
          · simp [hdd]
          · simp [hdd]
        have h2 : (if c.amount < eps then cs else c :: cs).length ≤ cs.length + 1 := by
          by_cases hdc : c.amount < eps
          · simp [hdc]
          · simp [hdc]
        simp only [List.length_cons]
        omega

theorem simpRun_length : ∀ (fuel : Nat) (s : SimpState) (txns : List Txn),
    simpRun fuel s = some txns →
    txns.length ≤ s.txns.length
      + (if simpDone s then 0 else s.debtors.length + s.creditors.length - 1) := by
  intro fuel
  induction fuel with
  | zero =>
      intro s txns hrun
      by_cases hdone : simpDone s = true
      · rw [simpRun_done hdone] at hrun
        obtain rfl : s.txns = txns := Option.some.injEq _ _ ▸ hrun
        simp [hdone]
      · rw [simpRun_zero (Bool.of_not_eq_true hdone)] at hrun
        exact absurd hrun (by simp)
  | succ fuel ih =>
      intro s txns hrun
      by_cases hdone : simpDone s = true
      · rw [simpRun_done hdone] at hrun
        obtain rfl : s.txns = txns := Option.some.injEq _ _ ▸ hrun
        simp [hdone]
      · have hdone' : simpDone s = false := Bool.of_not_eq_true hdone
        rw [simpRun_succ hdone'] at hrun
        have hmem := (simpDone_false_iff s).mp hdone'
        have hdlen : 1 ≤ s.debtors.length := List.length_pos.mpr hmem.1
        have hclen : 1 ≤ s.creditors.length := List.length_pos.mpr hmem.2
        have hbound := ih (simpStep s) txns hrun
        rw [if_neg (by rw [hdone']; exact Bool.noConfusion)]
        rcases simpStep_progress s hdone' with ⟨he, hmu⟩ | ⟨he, hmu⟩
        · by_cases hdone2 : simpDone (simpStep s) = true
          · rw [if_pos hdone2, he] at hbound
            omega
          · have hdone2' : simpDone (simpStep s) = false := Bool.of_not_eq_true hdone2
            rw [if_neg (by rw [hdone2']; exact Bool.noConfusion), he] at hbound
            omega
        · by_cases hdone2 : simpDone (simpStep s) = true
          · rw [if_pos hdone2, he] at hbound
            omega
          · have hdone2' : simpDone (simpStep s) = false := Bool.of_not_eq_true hdone2
            have hmem2 := (simpDone_false_iff (simpStep s)).mp hdone2'
            have hd2 : 1 ≤ (simpStep s).debtors.length := List.length_pos.mpr hmem2.1
            have hc2 : 1 ≤ (simpStep s).creditors.length := List.length_pos.mpr hmem2.2
            rw [if_neg (by rw [hdone2']; exact Bool.noConfusion), he] at hbound
            omega

theorem outSum_flatMap {α : Type} (l : List α) (f : α → List Txn) (name : String) :
    outSum (l.flatMap f) name = (l.map (fun a => outSum (f a) name)).sum := by
  induction l with
  | nil => simp [outSum_nil]
  | cons a as ih => simp [List.flatMap_cons, outSum_append, ih]

theorem detailed_inner_bound (d : Balance) (creditors : List Balance) (tot : ℚ)
    (htot : 0 < tot) (hd : 0 ≤ d.amount) (hc : ∀ b ∈ creditors, 0 ≤ b.amount)
    (name : String) :
    outSum (creditors.filterMap (fun creditor =>
        if eps < d.amount * (creditor.amount / tot) then
          some { fromName := d.participant.name, toName := creditor.participant.name,
                 amount := d.amount * (creditor.amount / tot) }
        else none)) name
      ≤ (if d.participant.name == name then
          d.amount * (((creditors.map Balance.amount).sum) / tot) else 0) := by
  induction creditors with
  | nil =>
      by_cases hm : (d.participant.name == name) = true <;>
        simp [hm, outSum_nil]
  | cons c cs ih =>
      have hc0 : 0 ≤ c.amount := hc c (List.mem_cons_self c cs)
      have hcs : ∀ b ∈ cs, 0 ≤ b.amount := fun b hb => hc b (List.mem_cons_of_mem c hb)
      have ih' := ih hcs
      have hpos : 0 ≤ d.amount * (c.amount / tot) := by positivity
      rw [List.filterMap_cons]
      by_cases hpay : eps < d.amount * (c.amount / tot)
      · rw [if_pos hpay]
        rw [outSum_cons]
        by_cases hm : (d.participant.name == name) = true
        · simp only [hm, if_true] at ih' ⊢
          simp only [List.map_cons, List.sum_cons]
          have hsplit : d.amount * ((c.amount + (cs.map Balance.amount).sum) / tot)
              = d.amount * (c.amount / tot)
                + d.amount * ((cs.map Balance.amount).sum / tot) := by
            ring
          rw [hsplit]
          linarith
        · simp only [hm, Bool.false_eq_true, if_false] at ih' ⊢
          linarith
      · rw [if_neg hpay]
        by_cases hm : (d.participant.name == name) = true
        · simp only [hm, if_true] at ih' ⊢
          simp only [List.map_cons, List.sum_cons]
          have hsplit : d.amount * ((c.amount + (cs.map Balance.amount).sum) / tot)
              = d.amount * (c.amount / tot)
                + d.amount * ((cs.map Balance.amount).sum / tot) := by
            ring
          rw [hsplit]
          linarith
        · simp only [hm, Bool.false_eq_true, if_false] at ih' ⊢
          linarith

theorem detailed_outSum_le (bs : List Balance) (name : String) :
    outSum (detailedSettleTransactions bs) name ≤ nameTotal (debtorsOf bs) name := by
  have hnn : 0 ≤ nameTotal (debtorsOf bs) name :=
    nameTotal_nonneg (debtorsOf_nonneg bs) name
  by_cases h1 : ((creditorsOf bs).isEmpty || (debtorsOf bs).isEmpty) = true
  · unfold detailedSettleTransactions
    rw [if_pos h1]
    simpa [outSum_nil] using hnn
  · have h1' := Bool.of_not_eq_true h1
    by_cases h2 : ((creditorsOf bs).map (·.amount)).sum < eps
    · unfold detailedSettleTransactions
      rw [if_neg (by rw [h1']; exact Bool.noConfusion), if_pos h2]
      simpa [outSum_nil] using hnn
    · have heps : (0 : ℚ) < eps := by norm_num [eps]
      have htot : 0 < ((creditorsOf bs).map (·.amount)).sum := lt_of_lt_of_le heps (not_lt.mp h2)
      have hstep : detailedSettleTransactions bs
          = (debtorsOf bs).flatMap (fun debtor =>
              (creditorsOf bs).filterMap (fun creditor =>
                if eps < debtor.amount * (creditor.amount / ((creditorsOf bs).map (·.amount)).sum) then
                  some { fromName := debtor.participant.name,
                         toName := creditor.participant.name,
                         amount := debtor.amount
                           * (creditor.amount / ((creditorsOf bs).map (·.amount)).sum) }
                else none)) := by
        unfold detailedSettleTransactions
        rw [if_neg (by rw [h1']; exact Bool.noConfusion), if_neg (by exact h2)]
      rw [hstep, outSum_flatMap, nameTotal_eq_sum_ite]
      apply List.sum_le_sum
      intro d hdmem
      have hd0 : 0 ≤ d.amount := debtorsOf_nonneg bs d hdmem
      have hb := detailed_inner_bound d (creditorsOf bs)
        (((creditorsOf bs).map (·.amount)).sum) htot hd0 (creditorsOf_nonneg bs) name
      have hself : (((creditorsOf bs).map Balance.amount).sum)
          / (((creditorsOf bs).map (·.amount)).sum) = 1 := div_self (ne_of_gt htot)
      rw [hself] at hb
      by_cases hm : (d.participant.name == name) = true
      · simp only [hm, if_true] at hb ⊢
        simpa using hb
      · simp only [hm, Bool.false_eq_true, if_false] at hb ⊢
        exact hb

/-! ### Claim C3 -/

/-- C3 counterexample: on the balance list `balStuck` (creditors about
0.010000000000000004 and 0.25, debtor about -0.020000000000000004; all
exactly representable doubles on which the loop's double arithmetic is
exact, see `balStuck`) the simplified-settlement loop reaches, after one
iteration, a state whose guard still holds (`simpDone` is false) and
which the loop body maps to itself: the remaining debt equals `eps`
(the exact value of the double literal 0.01), so `amountToSettle > 0.01`
fails, nothing is emitted or subtracted, and neither
`debtor.amount < 0.01` nor `creditor.amount < 0.01` advances a cursor.
The `while` loop of the source never terminates on these balances, and
the fuelled model returns `none` for the shown budget. -/
theorem C3_counterexample :
    simpDone stuckState = false
    ∧ simpStep stuckState = stuckState
    ∧ simpStep { debtors := debtorsOf balStuck, creditors := creditorsOf balStuck, txns := [] }
        = stuckState
    ∧ simplifiedSettleTransactions 6 balStuck = none := by
  refine ⟨rfl, ?_, ?_, ?_⟩
  · norm_num [simpStep, stuckState, eps, pB, pC, min_def]
  · norm_num [simpStep, stuckState, debtorsOf, creditorsOf, balStuck, eps, pA, pB, pC, min_def,
      abs_of_nonpos]
  · norm_num [simplifiedSettleTransactions, simpRun, simpStep, simpDone, debtorsOf, creditorsOf,
      balStuck, eps, pA, pB, pC, min_def, abs_of_nonpos]

/-- C3 (amended): the loop is not guaranteed to terminate on every
balance list (see the counterexample, where a remaining amount hits
exactly eps); whenever it does terminate, the number of emitted
transactions is at most |creditors| + |debtors| - 1. -/
theorem C3_amended (fuel : Nat) (bs : List Balance) (txns : List Txn)
    (h : simplifiedSettleTransactions fuel bs = some txns) :
    txns.length ≤ (creditorsOf bs).length + (debtorsOf bs).length - 1 := by
  have hb := simpRun_length fuel
    { debtors := debtorsOf bs, creditors := creditorsOf bs, txns := [] } txns h
  by_cases hdone : simpDone
      { debtors := debtorsOf bs, creditors := creditorsOf bs, txns := [] } = true
  · rw [if_pos hdone] at hb
    simp only [List.length_nil] at hb
    omega
  · rw [if_neg hdone] at hb
    simp only [List.length_nil] at hb
    omega

/-- Witness for the amended C3: on the spec's example balances the loop
terminates with 2 transactions, within the bound 1 + 2 - 1 = 2. -/
theorem C3_amended_witness :
    ([{ fromName := "B", toName := "A", amount := 30 },
      { fromName := "C", toName := "A", amount := 30 }] : List Txn).length
      ≤ (creditorsOf balSpec).length + (debtorsOf balSpec).length - 1 := by
  apply C3_amended 5 balSpec
  norm_num [simplifiedSettleTransactions, simpRun, simpStep, simpDone, debtorsOf, creditorsOf,
    balSpec, eps, pA, pB, pC, min_def, abs_of_pos, abs_of_nonpos]

/-! ### Claim C2 -/

/-- C2 counterexample: on the balance list [(A, 100), (B, -40)] both
policies emit exactly one transaction B -> A of 40, so the amount
flowing into creditor A (40) differs from A's balance (100) by more
than eps: within-eps conservation on the creditor side fails for both
policies. -/
theorem C2_counterexample :
    simplifiedSettleTransactions 3 balShort
        = some [{ fromName := "B", toName := "A", amount := 40 }]
    ∧ detailedSettleTransactions balShort
        = [{ fromName := "B", toName := "A", amount := 40 }]
    ∧ ({ participant := pA, amount := 100 } : Balance) ∈ creditorsOf balShort
    ∧ ¬ |inSum [{ fromName := "B", toName := "A", amount := 40 }] "A" - 100| ≤ eps := by
  refine ⟨?_, ?_, ?_, ?_⟩
  · norm_num [simplifiedSettleTransactions, simpRun, simpStep, simpDone, debtorsOf, creditorsOf,
      balShort, eps, pA, pB, min_def, abs_of_nonpos]
  · norm_num [detailedSettleTransactions, debtorsOf, creditorsOf, balShort, eps, pA, pB,
      List.filterMap_cons, abs_of_nonpos]
  · norm_num [creditorsOf, balShort, eps]
  · norm_num [inSum, eps]

/-- C2 (amended): for every balance list and participant name, the
transactions emitted by the simplified policy (whenever its loop
terminates) pay out of each debtor name at most that name's total owed
amount and into each creditor name at most that name's total balance,
and the detailed policy pays out of each debtor name at most that
name's total owed amount; the within-eps equalities of the original
claim do not hold in general. -/
theorem C2_amended (bs : List Balance) (name : String) :
    (∀ (fuel : Nat) (txns : List Txn), simplifiedSettleTransactions fuel bs = some txns →
        outSum txns name ≤ nameTotal (debtorsOf bs) name
          ∧ inSum txns name ≤ nameTotal (creditorsOf bs) name)
    ∧ outSum (detailedSettleTransactions bs) name ≤ nameTotal (debtorsOf bs) name := by
  constructor
  · intro fuel txns h
    have hcons := simpRun_conservation fuel
      { debtors := debtorsOf bs, creditors := creditorsOf bs, txns := [] } txns h
      (debtorsOf_nonneg bs) (creditorsOf_nonneg bs) name
    simpa [outSum_nil, inSum_nil] using hcons
  · exact detailed_outSum_le bs name

/-- Witness for the amended C2: on the counterexample balances, B pays
40 in total, at most B's owed total. -/
theorem C2_amended_witness :
    outSum [{ fromName := "B", toName := "A", amount := 40 }] "B"
        ≤ nameTotal (debtorsOf balShort) "B"
    ∧ outSum (detailedSettleTransactions balShort) "B" ≤ nameTotal (debtorsOf balShort) "B" := by
  obtain ⟨h1, h2⟩ := C2_amended balShort "B"
  refine ⟨?_, h2⟩
  refine (h1 3 [{ fromName := "B", toName := "A", amount := 40 }] ?_).1
  norm_num [simplifiedSettleTransactions, simpRun, simpStep, simpDone, debtorsOf, creditorsOf,
    balShort, eps, pA, pB, min_def, abs_of_nonpos]
